import Mathlib

/-!
# Antirc: the chat relay server (`src/server.cpp`)

A shallow embedding of the server's shared state (`clients`, `channels`), of
`broadcast`, and of `handle_client` (registration, the receive loop with its
command dispatch, and the disconnect cleanup), followed by theorems about them.

Conventions of the embedding

* `std::string` is `List Char` (one `Char` per byte); `Str` abbreviates it.
* `size_t` is a natural number below `2 ^ 64`; additions and subtractions on it
  are written with an explicit `% 2 ^ 64`, and `npos` is `2 ^ 64 - 1`.
* `std::string::substr` throws `std::out_of_range` when `pos > size()`; it
  returns an `Option`, and so does everything that calls it.
* `std::map<std::string, std::vector<int>>` is an association list with unique
  keys.  The map's key order is not observable by this program: the only
  iteration over the map (the disconnect cleanup) treats every entry on its own.
* `send(fd, msg, ...)` is recorded as the pair `(fd, msg)` appended to the list
  of sends; its return value is ignored by the source, so no failure is modelled.
* One `recv` result is one element of the list of chunks handed to the loop; an
  empty chunk stands for `bytes <= 0`.
* The mutex is not modelled: every function below is one sequential run.
-/

namespace Antirc

/-- The type of `std::string` values. -/
abbrev Str := List Char

/-- The constant `std::string::npos`, the largest `size_t`. -/
def npos : Nat := 2 ^ 64 - 1

/-- Addition of `size_t` values (wraps around). -/
def size_add (a b : Nat) : Nat := (a + b) % 2 ^ 64

/-- Subtraction of `size_t` values (wraps around). -/
def size_sub (a b : Nat) : Nat := (a + (2 ^ 64 - b % 2 ^ 64)) % 2 ^ 64

/-- Search of `pat` in the suffix `s` of a string, `i` being the index of the
head of `s` in the whole string: the worker of `find_str`. -/
def find_str_from : Str → Str → Nat → Nat
  | [], pat, i => if pat = [] then i else npos
  | c :: cs, pat, i =>
    if pat.isPrefixOf (c :: cs) then i else find_str_from cs pat (i + 1)

/-- The call `s.find(pat)` of `std::string`: index of the first occurrence of
`pat` in `s`, or `npos`. -/
def find_str (s pat : Str) : Nat := find_str_from s pat 0

/-- Search of the character `c` in the suffix `s` of a string, `i` being the
index of the head of `s` in the whole string: the worker of `find_char`. -/
def find_char_from : Str → Char → Nat → Nat
  | [], _, _ => npos
  | x :: xs, c, i => if x = c then i else find_char_from xs c (i + 1)

/-- The call `s.find(c, pos)` of `std::string`: index of the first `c` at or
after `pos`, or `npos`. -/
def find_char (s : Str) (c : Char) (pos : Nat) : Nat :=
  find_char_from (s.drop pos) c pos

/-- The call `s.substr(pos, count)` of `std::string`: `none` stands for the
`std::out_of_range` exception thrown when `pos > s.size()`. -/
def substr (s : Str) (pos count : Nat) : Option Str :=
  if pos ≤ s.length then some ((s.drop pos).take count) else none

/-- The struct `Client`. -/
structure Client where
  fd : Int
  nick : Str
  channel : Str
  deriving DecidableEq, Repr

/-- The type of the global `channels`. -/
abbrev Channels := List (Str × List Int)

/-- The two globals `clients` and `channels`. -/
structure Server where
  clients : List Client
  channels : Channels
  deriving DecidableEq, Repr

/-- One call of `send`: the descriptor and the bytes. -/
abbrev Send := Int × Str

/-- The state before any connection. -/
def Server.empty : Server := ⟨[], []⟩

/-- The call `channels.find(key)`: the mapped vector, or `none` for `end()`. -/
def map_find : Channels → Str → Option (List Int)
  | [], _ => none
  | (k, v) :: rest, key => if k = key then some v else map_find rest key

/-- The state of the map after `channels[key]` has been evaluated: `operator[]`
inserts an empty vector when the key is absent. -/
def map_index (m : Channels) (key : Str) : Channels :=
  match map_find m key with
  | some _ => m
  | none => m ++ [(key, [])]

/-- The vector that `channels[key]` refers to (after `map_index`). -/
def map_at (m : Channels) (key : Str) : List Int :=
  (map_find m key).getD []

/-- The map after `push_back(fd)` on the vector stored under `key`. -/
def map_push_back : Channels → Str → Int → Channels
  | [], _, _ => []
  | (k, v) :: rest, key, fd =>
    if k = key then (k, v ++ [fd]) :: rest else (k, v) :: map_push_back rest key fd

/-- The function `broadcast(msg, channel)`: the guard with `find`, then one
`send` per element of `channels[channel]`. -/
def broadcast (msg channel : Str) (s : Server) : Server × List Send :=
  match map_find s.channels channel with
  | some _ =>
    let chs := map_index s.channels channel
    ({ s with channels := chs }, (map_at chs channel).map (fun fd => (fd, msg)))
  | none => (s, [])

/-- The three lines of the `PRIVMSG` branch that parse `message` (lines 73-75):
`pos`, then `target` and `text`. -/
def privmsg_split (message : Str) : Option (Str × Str) :=
  let pos := find_char message ' ' 8
  match substr message 8 (size_sub pos 8) with
  | none => none
  | some target =>
    match substr message (size_add pos 1) npos with
    | none => none
    | some text => some (target, text)

/-- The command dispatch of `handle_client` on one `message` (lines 58-78). -/
def dispatch (client_fd : Int) (client : Client) (s : Server) (message : Str) :
    Option (Client × Server × List Send) :=
  if find_str message "NICK ".toList = 0 then
    match substr message 5 npos with
    | none => none
    | some nick =>
      let client := { client with nick := nick }
      let reply := ":".toList ++ client.nick ++ " NICK :".toList ++ client.nick ++ "\r\n".toList
      some (client, s, [(client_fd, reply)])
  else if find_str message "JOIN ".toList = 0 then
    match substr message 5 npos with
    | none => none
    | some channel =>
      let client := { client with channel := channel }
      let chs := map_push_back (map_index s.channels client.channel) client.channel client_fd
      let s := { s with channels := chs }
      let reply := ":".toList ++ client.nick ++ " JOIN ".toList ++ client.channel ++ "\r\n".toList
      let r := broadcast reply client.channel s
      some (client, r.1, r.2)
  else if find_str message "PRIVMSG ".toList = 0 then
    match privmsg_split message with
    | none => none
    | some (target, text) =>
      let reply := ":".toList ++ client.nick ++ " PRIVMSG ".toList ++ target ++
        " :".toList ++ text ++ "\r\n".toList
      let r := broadcast reply client.channel s
      some (client, r.1, r.2)
  else some (client, s, [])

/-- The conversion `std::string message(buffer)` after `buffer[bytes] = 0`: the
received bytes up to the first NUL byte. -/
def c_str (chunk : Str) : Str := chunk.takeWhile (fun c => c ≠ '\x00')

/-- The `while (true)` loop of `handle_client` over the successive results of
`recv`; an empty chunk (`bytes <= 0`) or the end of the list leaves the loop. -/
def recv_loop (client_fd : Int) : Client → Server → List Str →
    Option (Client × Server × List Send)
  | client, s, [] => some (client, s, [])
  | client, s, chunk :: rest =>
    if chunk.length = 0 then some (client, s, [])
    else
      match dispatch client_fd client s (c_str chunk) with
      | none => none
      | some (client1, s1, out1) =>
        match recv_loop client_fd client1 s1 rest with
        | none => none
        | some (client2, s2, out2) => some (client2, s2, out1 ++ out2)

/-- The registration block of `handle_client` (lines 44-49). -/
def register (client_fd : Int) (s : Server) : Client × Server :=
  let client : Client := ⟨client_fd, [], []⟩
  (client, { s with clients := s.clients ++ [client] })

/-- The disconnect cleanup of `handle_client` (lines 81-91): the first entry of
`clients` with this descriptor is erased, and in every channel the first
occurrence of the descriptor is erased. -/
def cleanup (client_fd : Int) (s : Server) : Server :=
  { clients := s.clients.eraseP (fun c => c.fd == client_fd),
    channels := s.channels.map (fun kv => (kv.1, kv.2.erase client_fd)) }

/-- The function `handle_client(client_fd)` run on the given results of `recv`:
the final globals and the sends made. -/
def handle_client (client_fd : Int) (chunks : List Str) (s : Server) :
    Option (Server × List Send) :=
  let r := register client_fd s
  match recv_loop client_fd r.1 r.2 chunks with
  | none => none
  | some (_, s1, out) => some (cleanup client_fd s1, out)


/-- The scenario of section 8 of the specification, run on the code: handlers for
the descriptors 4 (A) and 5 (B) are registered; A receives `NICK alice` and
`JOIN #test`, B receives `NICK bob` and `JOIN #test`, then A receives
`PRIVMSG #test :hello`, each line ended by CRLF and received as one chunk.  The
value is the list of sends caused by the last chunk. -/
def privmsg_scenario : Option (List Send) :=
  let a := register 4 Server.empty
  let b := register 5 a.2
  (recv_loop 4 a.1 b.2 ["NICK alice\r\n".toList, "JOIN #test\r\n".toList]).bind fun a1 =>
  (recv_loop 5 b.1 a1.2.1 ["NICK bob\r\n".toList, "JOIN #test\r\n".toList]).bind fun b1 =>
  (recv_loop 4 a1.1 b1.2.1 ["PRIVMSG #test :hello\r\n".toList]).map fun a2 => a2.2.2

/-! ## Strings: `find` and `substr` -/

theorem find_str_from_ne_zero (s pat : Str) (i : Nat) (hi : 0 < i) :
    find_str_from s pat i ≠ 0 := by
  induction s generalizing i with
  | nil =>
    unfold find_str_from
    split
    · omega
    · simp [npos]
  | cons c cs ih =>
    unfold find_str_from
    split
    · omega
    · exact ih (i + 1) (by omega)

theorem find_str_eq_zero_iff (s pat : Str) :
    find_str s pat = 0 ↔ pat.isPrefixOf s = true := by
  unfold find_str
  cases s with
  | nil =>
    cases pat with
    | nil => simp [find_str_from]
    | cons p ps => simp [find_str_from, npos, List.isPrefixOf]
  | cons c cs =>
    unfold find_str_from
    by_cases h : pat.isPrefixOf (c :: cs) = true
    · simp [h]
    · have hne := find_str_from_ne_zero cs pat 1 (by omega)
      simp [h, hne]

theorem find_str_append (p r : Str) : find_str (p ++ r) p = 0 := by
  rw [find_str_eq_zero_iff]
  simp

theorem find_char_from_not_mem (s : Str) (c : Char) (i : Nat) (h : c ∉ s) :
    find_char_from s c i = npos := by
  induction s generalizing i with
  | nil => rfl
  | cons x xs ih =>
    simp only [List.mem_cons, not_or] at h
    unfold find_char_from
    rw [if_neg (fun e => h.1 e.symm)]
    exact ih (i + 1) h.2

theorem find_char_from_append (t rest : Str) (c : Char) (i : Nat) (h : c ∉ t) :
    find_char_from (t ++ c :: rest) c i = i + t.length := by
  induction t generalizing i with
  | nil => simp [find_char_from]
  | cons x xs ih =>
    simp only [List.mem_cons, not_or] at h
    simp only [List.cons_append, List.length_cons]
    unfold find_char_from
    rw [if_neg (fun e => h.1 e.symm), ih (i + 1) h.2]
    omega

theorem nick_not_join (r : Str) : find_str ("JOIN ".toList ++ r) "NICK ".toList ≠ 0 := by
  rw [Ne, find_str_eq_zero_iff]
  simp [List.isPrefixOf]

theorem nick_not_privmsg (r : Str) :
    find_str ("PRIVMSG ".toList ++ r) "NICK ".toList ≠ 0 := by
  rw [Ne, find_str_eq_zero_iff]
  simp [List.isPrefixOf]

theorem join_not_privmsg (r : Str) :
    find_str ("PRIVMSG ".toList ++ r) "JOIN ".toList ≠ 0 := by
  rw [Ne, find_str_eq_zero_iff]
  simp [List.isPrefixOf]

theorem substr_nick_join (p r : Str) (hp : p.length = 5) (hr : r.length < npos) :
    substr (p ++ r) 5 npos = some r := by
  unfold substr
  rw [if_pos (by simp [hp]), ← hp, List.drop_left, List.take_of_length_le (by omega)]

/-- The split of a `PRIVMSG` message whose remainder has a space: `target` is
what precedes the first space and `text` all that follows it. -/
theorem privmsg_split_space (target text : Str) (hsp : ' ' ∉ target)
    (hlen : ("PRIVMSG ".toList ++ (target ++ ' ' :: text)).length < npos) :
    privmsg_split ("PRIVMSG ".toList ++ (target ++ ' ' :: text)) = some (target, text) := by
  have h8 : ("PRIVMSG ".toList).length = 8 := rfl
  simp only [List.length_append, List.length_cons, h8, npos] at hlen
  have hpos : find_char ("PRIVMSG ".toList ++ (target ++ ' ' :: text)) ' ' 8
      = 8 + target.length := by
    unfold find_char
    rw [← h8, List.drop_left, find_char_from_append target text ' ' _ hsp]
  have hsub : size_sub (8 + target.length) 8 = target.length := by
    unfold size_sub; omega
  have hadd : size_add (8 + target.length) 1 = ("PRIVMSG ".toList ++ target ++ [' ']).length := by
    unfold size_add
    simp only [List.length_append, List.length_cons, List.length_nil, h8]
    omega
  have h1 : substr ("PRIVMSG ".toList ++ (target ++ ' ' :: text)) 8 target.length
      = some target := by
    unfold substr
    rw [if_pos (by simp [h8]), ← h8, List.drop_left, List.take_left]
  have h2 : substr ("PRIVMSG ".toList ++ (target ++ ' ' :: text))
      ("PRIVMSG ".toList ++ target ++ [' ']).length npos = some text := by
    have e : "PRIVMSG ".toList ++ (target ++ ' ' :: text)
        = ("PRIVMSG ".toList ++ target ++ [' ']) ++ text := by simp
    rw [e]
    unfold substr
    rw [if_pos (by simp), List.drop_left, List.take_of_length_le (by unfold npos; omega)]
  unfold privmsg_split
  simp only [hpos, hsub, hadd, h1, h2]

/-- The split of a `PRIVMSG` message whose remainder has no space: `find` gives
`npos`, so `target` is the whole remainder and, `npos + 1` wrapping to 0, `text`
is the whole message. -/
theorem privmsg_split_no_space (r : Str) (hsp : ' ' ∉ r)
    (hlen : ("PRIVMSG ".toList ++ r).length < npos) :
    privmsg_split ("PRIVMSG ".toList ++ r) = some (r, "PRIVMSG ".toList ++ r) := by
  have h8 : ("PRIVMSG ".toList).length = 8 := rfl
  have hpos : find_char ("PRIVMSG ".toList ++ r) ' ' 8 = npos := by
    unfold find_char
    rw [← h8, List.drop_left, find_char_from_not_mem r ' ' _ hsp]
  have hsub : size_sub npos 8 = npos - 8 := by decide
  have hadd : size_add npos 1 = 0 := by decide
  simp only [List.length_append, h8] at hlen
  have h1 : substr ("PRIVMSG ".toList ++ r) 8 (npos - 8) = some r := by
    unfold substr
    rw [if_pos (by simp [h8]), ← h8, List.drop_left, List.take_of_length_le (by omega)]
  have h2 : substr ("PRIVMSG ".toList ++ r) 0 npos = some ("PRIVMSG ".toList ++ r) := by
    unfold substr
    rw [if_pos (by simp), List.drop_zero,
      List.take_of_length_le (by simp only [List.length_append, h8]; omega)]
  unfold privmsg_split
  simp only [hpos, hsub, hadd, h1, h2]

/-! ## The map `channels` -/

theorem map_find_append_single (m : Channels) (k key : Str) (v : List Int) :
    map_find (m ++ [(k, v)]) key =
      match map_find m key with
      | some x => some x
      | none => if k = key then some v else none := by
  induction m with
  | nil => simp [map_find]
  | cons kv rest ih =>
    obtain ⟨k0, v0⟩ := kv
    simp only [List.cons_append, map_find]
    split
    · rfl
    · exact ih

theorem map_find_index (m : Channels) (k key : Str) :
    map_find (map_index m k) key =
      if key = k then some (map_at m k) else map_find m key := by
  unfold map_index map_at
  cases h : map_find m k with
  | some v =>
    simp only [Option.getD_some]
    split
    · next e => rw [e, h]
    · rfl
  | none =>
    simp only [Option.getD_none, map_find_append_single]
    by_cases e : key = k
    · subst e; simp [h]
    · have e2 : ¬ k = key := fun x => e x.symm
      simp only [e, e2, if_false]
      cases map_find m key <;> rfl

theorem map_find_push_back (m : Channels) (k key : Str) (fd : Int) :
    map_find (map_push_back m k fd) key =
      if key = k then (map_find m k).map (fun v => v ++ [fd]) else map_find m key := by
  induction m with
  | nil => simp [map_push_back, map_find]
  | cons kv rest ih =>
    obtain ⟨k0, v0⟩ := kv
    unfold map_push_back
    by_cases e0 : k0 = k
    · subst e0
      simp only [if_true, map_find]
      by_cases e : k0 = key
      · subst e; simp
      · have e2 : ¬ key = k0 := fun x => e x.symm
        simp [e, e2]
    · simp only [e0, if_false, map_find, ih]
      by_cases e : k0 = key
      · subst e; simp [e0]
      · simp [e]

/-- The member list of every channel after the `JOIN` update
`channels[k].push_back(fd)`. -/
theorem map_at_join (m : Channels) (k key : Str) (fd : Int) :
    map_at (map_push_back (map_index m k) k fd) key =
      if key = k then map_at m k ++ [fd] else map_at m key := by
  unfold map_at
  rw [map_find_push_back, map_find_index]
  by_cases e : key = k
  · simp [e, map_at]
  · simp [e, map_find_index]

theorem map_index_of_find (m : Channels) (k : Str) (v : List Int)
    (h : map_find m k = some v) : map_index m k = m := by
  unfold map_index
  rw [h]

/-- The function `broadcast` never changes the globals, and its sends go to the
member list stored under the channel name (none when the name is absent). -/
theorem broadcast_eq (msg channel : Str) (s : Server) :
    broadcast msg channel s =
      (s, (map_at s.channels channel).map (fun fd => (fd, msg))) := by
  unfold broadcast
  cases h : map_find s.channels channel with
  | none => simp [map_at, h]
  | some v => simp [map_index_of_find _ _ _ h]

/-! ## The command dispatch, branch by branch -/

theorem dispatch_nick (client_fd : Int) (client : Client) (s : Server) (r : Str)
    (hr : r.length < npos) :
    dispatch client_fd client s ("NICK ".toList ++ r) =
      some ({ client with nick := r }, s,
        [(client_fd, ":".toList ++ r ++ " NICK :".toList ++ r ++ "\r\n".toList)]) := by
  unfold dispatch
  rw [if_pos (find_str_append _ _), substr_nick_join "NICK ".toList r rfl hr]

theorem substr_five (p r : Str) (hp : p.length = 5) :
    substr (p ++ r) 5 npos = some (r.take npos) := by
  unfold substr
  rw [if_pos (by simp [hp]), ← hp, List.drop_left]

/-- The `JOIN` branch on any message with that prefix; `r.take npos` is `r` for
every string whose size fits `size_t`. -/
theorem dispatch_join_take (client_fd : Int) (client : Client) (s : Server) (r : Str) :
    dispatch client_fd client s ("JOIN ".toList ++ r) =
      some ({ client with channel := r.take npos },
        { s with channels :=
            map_push_back (map_index s.channels (r.take npos)) (r.take npos) client_fd },
        (map_at s.channels (r.take npos) ++ [client_fd]).map
          (fun fd => (fd, ":".toList ++ client.nick ++ " JOIN ".toList ++ r.take npos ++
            "\r\n".toList))) := by
  unfold dispatch
  rw [if_neg (nick_not_join r), if_pos (find_str_append _ _), substr_five "JOIN ".toList r rfl]
  simp only [broadcast_eq, map_at_join, if_true]

theorem dispatch_join (client_fd : Int) (client : Client) (s : Server) (r : Str)
    (hr : r.length < npos) :
    dispatch client_fd client s ("JOIN ".toList ++ r) =
      some ({ client with channel := r },
        { s with channels := map_push_back (map_index s.channels r) r client_fd },
        (map_at s.channels r ++ [client_fd]).map
          (fun fd => (fd, ":".toList ++ client.nick ++ " JOIN ".toList ++ r ++ "\r\n".toList))) := by
  have h := dispatch_join_take client_fd client s r
  rwa [List.take_of_length_le (by omega)] at h

theorem dispatch_privmsg (client_fd : Int) (client : Client) (s : Server)
    (target text : Str) (hsp : ' ' ∉ target)
    (hlen : ("PRIVMSG ".toList ++ (target ++ ' ' :: text)).length < npos) :
    dispatch client_fd client s ("PRIVMSG ".toList ++ (target ++ ' ' :: text)) =
      some (client, s, (map_at s.channels client.channel).map
        (fun fd => (fd, ":".toList ++ client.nick ++ " PRIVMSG ".toList ++ target ++
          " :".toList ++ text ++ "\r\n".toList))) := by
  unfold dispatch
  rw [if_neg (nick_not_privmsg _), if_neg (join_not_privmsg _), if_pos (find_str_append _ _),
    privmsg_split_space target text hsp hlen]
  simp only [broadcast_eq]

/-- A string containing a space splits at its first space. -/
theorem split_first_space (r : Str) (h : ' ' ∈ r) :
    ∃ target text, ' ' ∉ target ∧ r = target ++ ' ' :: text := by
  induction r with
  | nil => simp at h
  | cons x xs ih =>
    by_cases e : x = ' '
    · exact ⟨[], xs, by simp, by simp [e]⟩
    · have hx : ' ' ∈ xs := by
        rcases List.mem_cons.mp h with h1 | h1
        · exact absurd h1.symm e
        · exact h1
      obtain ⟨t, u, ht, hu⟩ := ih hx
      refine ⟨x :: t, u, ?_, by simp [hu]⟩
      simp only [List.mem_cons, not_or]
      exact ⟨fun e1 => e e1.symm, ht⟩

theorem c_str_of_not_mem (chunk : Str) (h : '\x00' ∉ chunk) : c_str chunk = chunk := by
  unfold c_str
  rw [List.takeWhile_eq_self_iff]
  intro x hx
  simp only [ne_eq, decide_not, Bool.not_eq_eq_eq_not, Bool.not_true, decide_eq_false_iff_not]
  rintro rfl
  exact h hx

theorem c_str_append (p r : Str) (hp : '\x00' ∉ p) : c_str (p ++ r) = p ++ c_str r := by
  unfold c_str
  induction p with
  | nil => rfl
  | cons x xs ih =>
    simp only [List.mem_cons, not_or] at hp
    have hx : x ≠ '\x00' := fun e => hp.1 e.symm
    simp only [List.cons_append, List.takeWhile_cons, ne_eq, hx, not_false_eq_true,
      decide_True, if_true, List.cons.injEq, true_and]
    exact ih hp.2

/-! ## The receive loop -/

/-- The loop over `cs1 ++ cs2` is the loop over `cs1` followed by the loop over
`cs2` from the state reached, the sends being concatenated (no chunk of `cs1`
being an end of stream). -/
theorem recv_loop_append (client_fd : Int) (client : Client) (s : Server)
    (cs1 cs2 : List Str) (h : ∀ m ∈ cs1, m ≠ []) :
    recv_loop client_fd client s (cs1 ++ cs2) =
      (recv_loop client_fd client s cs1).bind (fun r1 =>
        (recv_loop client_fd r1.1 r1.2.1 cs2).map (fun r2 =>
          (r2.1, r2.2.1, r1.2.2 ++ r2.2.2))) := by
  induction cs1 generalizing client s with
  | nil =>
    simp only [List.nil_append, recv_loop, Option.some_bind, List.nil_append]
    cases recv_loop client_fd client s cs2 <;> rfl
  | cons chunk rest ih =>
    have hne : chunk.length ≠ 0 := by
      have := h chunk (List.mem_cons_self _ _)
      simpa using this
    have hrest : ∀ m ∈ rest, m ≠ [] := fun m hm => h m (List.mem_cons_of_mem _ hm)
    simp only [List.cons_append, recv_loop, if_neg hne, List.append_eq]
    cases hd : dispatch client_fd client s (c_str chunk) with
    | none => rfl
    | some r =>
      obtain ⟨c1, s1, o1⟩ := r
      simp only [ih c1 s1 hrest]
      cases h1 : recv_loop client_fd c1 s1 rest with
      | none => rfl
      | some r1 =>
        obtain ⟨c2, s2, o2⟩ := r1
        simp only [Option.some_bind]
        cases h2 : recv_loop client_fd c2 s2 cs2 with
        | none => rfl
        | some r2 =>
          obtain ⟨c3, s3, o3⟩ := r2
          simp [List.append_assoc]

/-- One received chunk is handled as the single message `c_str chunk`. -/
theorem recv_loop_single (client_fd : Int) (client : Client) (s : Server) (chunk : Str)
    (hne : chunk ≠ []) :
    recv_loop client_fd client s [chunk] = dispatch client_fd client s (c_str chunk) := by
  have h0 : chunk.length ≠ 0 := by simpa using hne
  simp only [recv_loop, if_neg h0]
  cases dispatch client_fd client s (c_str chunk) with
  | none => rfl
  | some r =>
    obtain ⟨c1, s1, o1⟩ := r
    simp

/-- The loop over chunks that all start with `JOIN `: it returns, nickname and
descriptor of the client are kept, no member list loses an element, and after
at least one chunk the descriptor is in the member list of the client's channel. -/
theorem join_loop_spec (client_fd : Int) (chunks : List Str)
    (h : ∀ m ∈ chunks, "JOIN ".toList <+: m) (client : Client) (s : Server) :
    ∃ c1 s1 o1, recv_loop client_fd client s chunks = some (c1, s1, o1) ∧
      c1.nick = client.nick ∧ c1.fd = client.fd ∧ s1.clients = s.clients ∧
      (∀ k g, g ∈ map_at s.channels k → g ∈ map_at s1.channels k) ∧
      (chunks ≠ [] → client_fd ∈ map_at s1.channels c1.channel) := by
  induction chunks generalizing client s with
  | nil => exact ⟨client, s, [], rfl, rfl, rfl, rfl, fun _ _ hg => hg, fun hne => absurd rfl hne⟩
  | cons chunk rest ih =>
    obtain ⟨r, rfl⟩ := h _ (List.mem_cons_self _ _)
    have hrest : ∀ m ∈ rest, "JOIN ".toList <+: m := fun m hm => h m (List.mem_cons_of_mem _ hm)
    have hne : ("JOIN ".toList ++ r).length ≠ 0 := by simp
    have hc : c_str ("JOIN ".toList ++ r) = "JOIN ".toList ++ c_str r :=
      c_str_append _ _ (by decide)
    obtain ⟨c1, s1, o1, hrun, hnick, hfd, hcl, hmono, hin⟩ :=
      ih hrest { client with channel := (c_str r).take npos }
        ⟨s.clients, map_push_back (map_index s.channels ((c_str r).take npos))
            ((c_str r).take npos) client_fd⟩
    refine ⟨c1, s1, (map_at s.channels ((c_str r).take npos) ++ [client_fd]).map
      (fun fd => (fd, ":".toList ++ client.nick ++ " JOIN ".toList ++ (c_str r).take npos ++
        "\r\n".toList)) ++ o1, ?_, hnick, hfd, hcl, ?_, ?_⟩
    · simp only [recv_loop, if_neg hne, hc, dispatch_join_take, hrun]
    · intro k g hg
      apply hmono
      rw [map_at_join]
      split
      · next e => subst e; exact List.mem_append_left _ hg
      · exact hg
    · intro _
      cases rest with
      | nil =>
        simp only [recv_loop, Option.some.injEq, Prod.mk.injEq] at hrun
        obtain ⟨rfl, rfl, _⟩ := hrun
        simp only [map_at_join, if_true]
        exact List.mem_append_right _ (List.mem_singleton_self _)
      | cons c2 rest2 => exact hin (List.cons_ne_nil _ _)

/-- One `JOIN` chunk: the loop returns, and the descriptor is appended once to the
member list of the client's new channel, every other member list being kept. -/
theorem join_step_spec (client_fd : Int) (client : Client) (s : Server) (m : Str)
    (h : "JOIN ".toList <+: m) :
    ∃ c1 s1 o1, recv_loop client_fd client s [m] = some (c1, s1, o1) ∧
      ∀ k, map_at s1.channels k =
        if k = c1.channel then map_at s.channels k ++ [client_fd] else map_at s.channels k := by
  obtain ⟨r, rfl⟩ := h
  have hc : c_str ("JOIN ".toList ++ r) = "JOIN ".toList ++ c_str r :=
    c_str_append _ _ (by decide)
  have hrun := recv_loop_single client_fd client s ("JOIN ".toList ++ r) (by simp)
  rw [hc, dispatch_join_take] at hrun
  refine ⟨_, _, _, hrun, ?_⟩
  intro k
  simp only [map_at_join]
  split
  · next e => rw [e]
  · rfl

/-- The loop over `JOIN` chunks only appends copies of the descriptor to member
lists. -/
theorem join_loop_appends (client_fd : Int) (chunks : List Str)
    (h : ∀ m ∈ chunks, "JOIN ".toList <+: m) (client : Client) (s : Server)
    (c1 : Client) (s1 : Server) (o1 : List Send)
    (hrun : recv_loop client_fd client s chunks = some (c1, s1, o1)) (k : Str) :
    ∃ n, map_at s1.channels k = map_at s.channels k ++ List.replicate n client_fd := by
  induction chunks generalizing client s c1 o1 with
  | nil =>
    simp only [recv_loop, Option.some.injEq, Prod.mk.injEq] at hrun
    obtain ⟨_, rfl, _⟩ := hrun
    exact ⟨0, by simp⟩
  | cons chunk rest ih =>
    obtain ⟨r, rfl⟩ := h _ (List.mem_cons_self _ _)
    have hrest : ∀ m ∈ rest, "JOIN ".toList <+: m := fun m hm => h m (List.mem_cons_of_mem _ hm)
    have hne : ("JOIN ".toList ++ r).length ≠ 0 := by simp
    have hc : c_str ("JOIN ".toList ++ r) = "JOIN ".toList ++ c_str r :=
      c_str_append _ _ (by decide)
    simp only [recv_loop, if_neg hne, hc, dispatch_join_take] at hrun
    cases hr : recv_loop client_fd { client with channel := (c_str r).take npos }
        ⟨s.clients, map_push_back (map_index s.channels ((c_str r).take npos))
          ((c_str r).take npos) client_fd⟩ rest with
    | none => rw [hr] at hrun; simp at hrun
    | some res =>
      obtain ⟨c2, s2, o2⟩ := res
      rw [hr] at hrun
      simp only [Option.some.injEq, Prod.mk.injEq] at hrun
      obtain ⟨rfl, rfl, _⟩ := hrun
      obtain ⟨n, hn⟩ := ih hrest _ _ _ _ hr
      rw [hn, map_at_join]
      split
      · next e =>
        subst e
        exact ⟨n + 1, by simp [List.replicate_succ]⟩
      · exact ⟨n, rfl⟩

/-! ## Claims -/

/-- C5: for every message and every channel name that is absent from `channels`
or whose member list is empty, `broadcast` makes no send and returns the globals
`clients` and `channels` as they were (no entry is created for an absent name);
being a total function, it cannot fail. -/
theorem broadcast_absent_or_empty_noop (msg channel : Str) (s : Server)
    (h : map_find s.channels channel = none ∨ map_find s.channels channel = some []) :
    broadcast msg channel s = (s, []) := by
  rw [broadcast_eq]
  rcases h with h | h <;> simp [map_at, h]

theorem broadcast_absent_or_empty_noop_witness :
    (map_find (Server.mk [⟨4, [], []⟩] [("#empty".toList, [])]).channels "#empty".toList = none ∨
      map_find (Server.mk [⟨4, [], []⟩] [("#empty".toList, [])]).channels "#empty".toList
        = some []) ∧
    broadcast "hi\r\n".toList "#empty".toList (Server.mk [⟨4, [], []⟩] [("#empty".toList, [])])
      = (Server.mk [⟨4, [], []⟩] [("#empty".toList, [])], []) :=
  ⟨Or.inr (by decide), broadcast_absent_or_empty_noop _ _ _ (Or.inr (by decide))⟩

/-- C7: for every message `PRIVMSG ` ++ r whose remainder r contains a space
(and whose size fits `size_t`), the dispatcher splits r at its first space only:
the parsed target has no space, target ++ " " ++ text = r (so later spaces and a
leading `:` stay in text), and the message handed to `broadcast` for the
client's channel is ":" ++ nick ++ " PRIVMSG " ++ target ++ " :" ++ text ++ CRLF. -/
theorem privmsg_splits_at_first_space (client_fd : Int) (client : Client) (s : Server)
    (r : Str) (hsp : ' ' ∈ r) (hlen : ("PRIVMSG ".toList ++ r).length < npos) :
    ∃ target text,
      privmsg_split ("PRIVMSG ".toList ++ r) = some (target, text) ∧
      ' ' ∉ target ∧ target ++ " ".toList ++ text = r ∧
      dispatch client_fd client s ("PRIVMSG ".toList ++ r) =
        some (client,
          (broadcast (":".toList ++ client.nick ++ " PRIVMSG ".toList ++ target ++
            " :".toList ++ text ++ "\r\n".toList) client.channel s).1,
          (broadcast (":".toList ++ client.nick ++ " PRIVMSG ".toList ++ target ++
            " :".toList ++ text ++ "\r\n".toList) client.channel s).2) := by
  obtain ⟨target, text, ht, rfl⟩ := split_first_space r hsp
  refine ⟨target, text, privmsg_split_space target text ht hlen, ht, by simp, ?_⟩
  rw [dispatch_privmsg client_fd client s target text ht hlen, broadcast_eq]

theorem privmsg_splits_at_first_space_witness :
    ∃ target text,
      privmsg_split ("PRIVMSG ".toList ++ "#test :hi there\r\n".toList) = some (target, text) ∧
      ' ' ∉ target ∧ target ++ " ".toList ++ text = "#test :hi there\r\n".toList ∧
      dispatch 4 ⟨4, "alice".toList, "#test".toList⟩ ⟨[], [("#test".toList, [4, 5])]⟩
          ("PRIVMSG ".toList ++ "#test :hi there\r\n".toList) =
        some (⟨4, "alice".toList, "#test".toList⟩,
          (broadcast (":".toList ++ "alice".toList ++ " PRIVMSG ".toList ++ target ++
            " :".toList ++ text ++ "\r\n".toList) "#test".toList
            ⟨[], [("#test".toList, [4, 5])]⟩).1,
          (broadcast (":".toList ++ "alice".toList ++ " PRIVMSG ".toList ++ target ++
            " :".toList ++ text ++ "\r\n".toList) "#test".toList
            ⟨[], [("#test".toList, [4, 5])]⟩).2) :=
  privmsg_splits_at_first_space 4 ⟨4, "alice".toList, "#test".toList⟩
    ⟨[], [("#test".toList, [4, 5])]⟩ "#test :hi there\r\n".toList (by decide) (by decide)

/-- C8: for every well-formed `PRIVMSG` message (target without a space, then a
space, then the text), the sends are one per element of the member list stored
under the sender's own `client.channel`, each carrying the message built from
the target and the text: the descriptors sent to are exactly that member list
whatever the target is, and sender and globals stay as they were. -/
theorem privmsg_routed_by_sender_channel (client_fd : Int) (client : Client) (s : Server)
    (target text : Str) (hsp : ' ' ∉ target)
    (hlen : ("PRIVMSG ".toList ++ (target ++ ' ' :: text)).length < npos) :
    ∃ out, dispatch client_fd client s ("PRIVMSG ".toList ++ (target ++ ' ' :: text)) =
        some (client, s, out) ∧
      out.map Prod.fst = map_at s.channels client.channel ∧
      ∀ o ∈ out, o.2 = ":".toList ++ client.nick ++ " PRIVMSG ".toList ++ target ++
          " :".toList ++ text ++ "\r\n".toList := by
  refine ⟨_, dispatch_privmsg client_fd client s target text hsp hlen, ?_, ?_⟩
  · simp [List.map_map, Function.comp_def]
  · intro o ho
    obtain ⟨fd, _, rfl⟩ := List.mem_map.mp ho
    rfl

theorem privmsg_routed_by_sender_channel_witness :
    ∃ out, dispatch 4 ⟨4, "alice".toList, "#a".toList⟩
        ⟨[], [("#a".toList, [4, 5]), ("#b".toList, [6])]⟩
        ("PRIVMSG ".toList ++ ("#b".toList ++ ' ' :: ":hello\r\n".toList)) =
        some (⟨4, "alice".toList, "#a".toList⟩,
          ⟨[], [("#a".toList, [4, 5]), ("#b".toList, [6])]⟩, out) ∧
      out.map Prod.fst =
        map_at (Server.mk [] [("#a".toList, [4, 5]), ("#b".toList, [6])]).channels
          (Client.mk 4 "alice".toList "#a".toList).channel ∧
      ∀ o ∈ out, o.2 = ":".toList ++ (Client.mk 4 "alice".toList "#a".toList).nick ++
          " PRIVMSG ".toList ++ "#b".toList ++ " :".toList ++ ":hello\r\n".toList ++
          "\r\n".toList :=
  privmsg_routed_by_sender_channel 4 ⟨4, "alice".toList, "#a".toList⟩
    ⟨[], [("#a".toList, [4, 5]), ("#b".toList, [6])]⟩ "#b".toList ":hello\r\n".toList
    (by decide) (by decide)

/-- C1 (the code at the scenario): after `NICK alice`, `JOIN #test` from A (fd 4)
and `NICK bob`, `JOIN #test` from B (fd 5), the chunk `PRIVMSG #test :hello` CRLF
from A causes one send to 4 and one to 5, but the bytes are
`:alice` CRLF ` PRIVMSG #test ::hello` CRLF CRLF, not `:alice PRIVMSG #test :hello`
CRLF: the nickname keeps its line terminator, and the text keeps its colon and
its terminator. -/
theorem privmsg_scenario_sends :
    privmsg_scenario =
      some [(4, ":alice\r\n PRIVMSG #test ::hello\r\n\r\n".toList),
            (5, ":alice\r\n PRIVMSG #test ::hello\r\n\r\n".toList)] ∧
    privmsg_scenario ≠
      some [(4, ":alice PRIVMSG #test :hello\r\n".toList),
            (5, ":alice PRIVMSG #test :hello\r\n".toList)] := by
  decide

/-- C2 (refuted as stated): after the chunk `JOIN foo` CRLF the channel of the
client is `foo` CRLF and the reply is `: JOIN foo` CRLF CRLF, sent to the members
of that channel; and after the bare message `JOIN foo` the channel is `foo`.  In
neither case is it `#foo`: the server adds no `#`. -/
theorem join_adds_no_hash_prefix :
    recv_loop 4 ⟨4, [], []⟩ ⟨[⟨4, [], []⟩], []⟩ ["JOIN foo\r\n".toList] =
      some (⟨4, [], "foo\r\n".toList⟩, ⟨[⟨4, [], []⟩], [("foo\r\n".toList, [4])]⟩,
        [(4, ": JOIN foo\r\n\r\n".toList)]) ∧
    recv_loop 4 ⟨4, [], []⟩ ⟨[⟨4, [], []⟩], []⟩ ["JOIN foo".toList] =
      some (⟨4, [], "foo".toList⟩, ⟨[⟨4, [], []⟩], [("foo".toList, [4])]⟩,
        [(4, ": JOIN foo\r\n".toList)]) ∧
    (recv_loop 4 ⟨4, [], []⟩ ⟨[⟨4, [], []⟩], []⟩ ["JOIN foo\r\n".toList]).map
      (fun r => r.1.channel) ≠ some "#foo".toList := by
  refine ⟨by decide, by decide, by decide⟩

/-- C2 (amended): for every sequence of `JOIN` chunks followed by a last message
`JOIN ` ++ name, where name has no NUL byte and no line terminator and fits
`size_t`, the loop returns, the channel of the client is then exactly name (the
server adds no `#`), the descriptor has been appended to the member list of
name, and the sends of the last message are the reply
":" ++ nick ++ " JOIN " ++ name ++ CRLF to every member of name, the client
included. -/
theorem join_channel_is_last_name (client_fd : Int) (client : Client) (s : Server)
    (pre : List Str) (name : Str)
    (hpre : ∀ m ∈ pre, "JOIN ".toList <+: m)
    (hname : ∀ ch ∈ name, ch ≠ '\x00' ∧ ch ≠ '\r' ∧ ch ≠ '\n')
    (hlen : name.length < npos) :
    ∃ c1 s1 o1, recv_loop client_fd client s pre = some (c1, s1, o1) ∧
      recv_loop client_fd client s (pre ++ ["JOIN ".toList ++ name]) =
        some (⟨c1.fd, client.nick, name⟩,
          ⟨s1.clients, map_push_back (map_index s1.channels name) name client_fd⟩,
          o1 ++ (map_at s1.channels name ++ [client_fd]).map
            (fun fd => (fd, ":".toList ++ client.nick ++ " JOIN ".toList ++ name ++
              "\r\n".toList))) := by
  obtain ⟨c1, s1, o1, hrun, hnick, _, _, _, _⟩ := join_loop_spec client_fd pre hpre client s
  have hne : ∀ m ∈ pre, m ≠ [] := by
    intro m hm e
    obtain ⟨r, hr⟩ := hpre m hm
    rw [e] at hr
    simp at hr
  have hnul : '\x00' ∉ "JOIN ".toList ++ name := by
    intro hin
    rcases List.mem_append.mp hin with h1 | h1
    · revert h1; decide
    · exact (hname _ h1).1 rfl
  refine ⟨c1, s1, o1, hrun, ?_⟩
  rw [recv_loop_append _ _ _ _ _ hne, hrun, Option.some_bind,
    recv_loop_single _ _ _ _ (by simp), c_str_of_not_mem _ hnul,
    dispatch_join _ _ _ _ hlen, hnick]
  rfl

theorem join_channel_is_last_name_witness :
    ∃ c1 s1 o1, recv_loop 4 ⟨4, [], []⟩ ⟨[⟨4, [], []⟩], []⟩ ["JOIN #a\r\n".toList]
        = some (c1, s1, o1) ∧
      recv_loop 4 ⟨4, [], []⟩ ⟨[⟨4, [], []⟩], []⟩
          (["JOIN #a\r\n".toList] ++ ["JOIN ".toList ++ "foo".toList]) =
        some (⟨c1.fd, (Client.mk 4 [] []).nick, "foo".toList⟩,
          ⟨s1.clients, map_push_back (map_index s1.channels "foo".toList) "foo".toList 4⟩,
          o1 ++ (map_at s1.channels "foo".toList ++ [4]).map
            (fun fd => (fd, ":".toList ++ (Client.mk 4 [] []).nick ++ " JOIN ".toList ++
              "foo".toList ++ "\r\n".toList))) :=
  join_channel_is_last_name 4 ⟨4, [], []⟩ ⟨[⟨4, [], []⟩], []⟩ ["JOIN #a\r\n".toList]
    "foo".toList (by simp) (by decide) (by decide)

/-- C3 (refuted as stated): after `JOIN #a` then `JOIN #b` (each with CRLF) the
descriptor 4 is in the member lists of both channels, the previous one included;
and after `JOIN #a` twice it is twice in the member list of that channel. -/
theorem join_keeps_previous_membership :
    (recv_loop 4 ⟨4, [], []⟩ ⟨[⟨4, [], []⟩], []⟩
        ["JOIN #a\r\n".toList, "JOIN #b\r\n".toList]).map (fun r => (r.1.channel, r.2.1.channels))
      = some ("#b\r\n".toList, [("#a\r\n".toList, [4]), ("#b\r\n".toList, [4])]) ∧
    (4 : Int) ∈ map_at [("#a\r\n".toList, [4]), ("#b\r\n".toList, [4])] "#a\r\n".toList ∧
    (recv_loop 4 ⟨4, [], []⟩ ⟨[⟨4, [], []⟩], []⟩
        ["JOIN #a\r\n".toList, "JOIN #a\r\n".toList]).map (fun r => r.2.1.channels)
      = some [("#a\r\n".toList, [4, 4])] := by
  decide

/-- C3 (amended): for all sequences `pre` and `post` of `JOIN` chunks and every
`JOIN` chunk `m` between them, the loop returns on `pre`, on `pre ++ [m]` and on
`pre ++ [m] ++ post`, and
* the chunk `m` appends the descriptor once to the member list of the client's
  new channel, whether it was in it or not, and leaves every other member list
  as it was;
* the chunks of `post` only append copies of the descriptor to member lists:
  nothing is ever removed;
* after `post` the descriptor is in the member list of the client's current
  channel and still in that of the channel it had after `m`;
* when `m` names the channel the client was already in, the descriptor is at
  least twice in that member list. -/
theorem join_membership_accumulates (client_fd : Int) (client : Client) (s : Server)
    (pre : List Str) (m : Str) (post : List Str)
    (hpre : ∀ x ∈ pre, "JOIN ".toList <+: x) (hm : "JOIN ".toList <+: m)
    (hpost : ∀ x ∈ post, "JOIN ".toList <+: x) :
    ∃ c0 s0 o0 c1 s1 o1 c2 s2 o2,
      recv_loop client_fd client s pre = some (c0, s0, o0) ∧
      recv_loop client_fd client s (pre ++ [m]) = some (c1, s1, o1) ∧
      recv_loop client_fd client s (pre ++ [m] ++ post) = some (c2, s2, o2) ∧
      (∀ k, map_at s1.channels k =
        if k = c1.channel then map_at s0.channels k ++ [client_fd] else map_at s0.channels k) ∧
      (∀ k, ∃ n, map_at s2.channels k = map_at s1.channels k ++ List.replicate n client_fd) ∧
      client_fd ∈ map_at s2.channels c2.channel ∧
      client_fd ∈ map_at s2.channels c1.channel ∧
      (pre ≠ [] → c1.channel = c0.channel →
        2 ≤ (map_at s1.channels c1.channel).count client_fd) := by
  obtain ⟨c0, s0, o0, hrun0, _, _, _, _, hin0⟩ := join_loop_spec client_fd pre hpre client s
  obtain ⟨c1, s1, o1, hrun1, hstep⟩ := join_step_spec client_fd c0 s0 m hm
  obtain ⟨c2, s2, o2, hrun2, _, _, _, hmono2, hin2⟩ := join_loop_spec client_fd post hpost c1 s1
  have hne0 : ∀ x ∈ pre, x ≠ [] := by
    intro x hx e
    obtain ⟨r, hr⟩ := hpre x hx
    rw [e] at hr
    simp at hr
  have hne1 : ∀ x ∈ pre ++ [m], x ≠ [] := by
    intro x hx e
    rcases List.mem_append.mp hx with h | h
    · exact hne0 x h e
    · obtain ⟨r, hr⟩ := hm
      rw [List.mem_singleton.mp h] at e
      rw [e] at hr
      simp at hr
  have hfull1 : recv_loop client_fd client s (pre ++ [m]) = some (c1, s1, o0 ++ o1) := by
    rw [recv_loop_append _ _ _ _ _ hne0, hrun0, Option.some_bind, hrun1]
    rfl
  have hfull2 : recv_loop client_fd client s (pre ++ [m] ++ post)
      = some (c2, s2, (o0 ++ o1) ++ o2) := by
    rw [recv_loop_append _ _ _ _ _ hne1, hfull1, Option.some_bind, hrun2]
    rfl
  have hmem1 : client_fd ∈ map_at s1.channels c1.channel := by
    rw [hstep c1.channel, if_pos rfl]
    exact List.mem_append_right _ (List.mem_singleton_self _)
  refine ⟨c0, s0, o0, c1, s1, o0 ++ o1, c2, s2, (o0 ++ o1) ++ o2, hrun0, hfull1, hfull2, hstep,
    fun k => join_loop_appends client_fd post hpost c1 s1 c2 s2 o2 hrun2 k, ?_,
    hmono2 _ _ hmem1, ?_⟩
  · cases post with
    | nil =>
      simp only [recv_loop, Option.some.injEq, Prod.mk.injEq] at hrun2
      obtain ⟨rfl, rfl, _⟩ := hrun2
      exact hmem1
    | cons x xs => exact hin2 (List.cons_ne_nil _ _)
  · intro hp hsame
    rw [hstep c1.channel, if_pos rfl, List.count_append, hsame]
    have h1 : 0 < (map_at s0.channels c0.channel).count client_fd :=
      List.count_pos_iff.mpr (hin0 hp)
    have h2 : List.count client_fd [client_fd] = 1 := by simp
    omega

theorem join_membership_accumulates_witness :
    ∃ c0 s0 o0 c1 s1 o1 c2 s2 o2,
      recv_loop 4 ⟨4, [], []⟩ ⟨[⟨4, [], []⟩], [("#a\r\n".toList, [9, 8])]⟩
        ["JOIN #a\r\n".toList] = some (c0, s0, o0) ∧
      recv_loop 4 ⟨4, [], []⟩ ⟨[⟨4, [], []⟩], [("#a\r\n".toList, [9, 8])]⟩
        (["JOIN #a\r\n".toList] ++ ["JOIN #a\r\n".toList]) = some (c1, s1, o1) ∧
      recv_loop 4 ⟨4, [], []⟩ ⟨[⟨4, [], []⟩], [("#a\r\n".toList, [9, 8])]⟩
        (["JOIN #a\r\n".toList] ++ ["JOIN #a\r\n".toList] ++ ["JOIN #b\r\n".toList])
        = some (c2, s2, o2) ∧
      (∀ k, map_at s1.channels k =
        if k = c1.channel then map_at s0.channels k ++ [4] else map_at s0.channels k) ∧
      (∀ k, ∃ n, map_at s2.channels k = map_at s1.channels k ++ List.replicate n 4) ∧
      (4 : Int) ∈ map_at s2.channels c2.channel ∧
      (4 : Int) ∈ map_at s2.channels c1.channel ∧
      (["JOIN #a\r\n".toList] ≠ [] → c1.channel = c0.channel →
        2 ≤ (map_at s1.channels c1.channel).count 4) :=
  join_membership_accumulates 4 ⟨4, [], []⟩ ⟨[⟨4, [], []⟩], [("#a\r\n".toList, [9, 8])]⟩
    ["JOIN #a\r\n".toList] "JOIN #a\r\n".toList ["JOIN #b\r\n".toList]
    (by simp) (by simp) (by simp)

/-- C4 (the code at the failing input): the handler of descriptor 5 receives
`JOIN #a` CRLF twice and then the end of the stream.  After its cleanup `clients`
is empty but 5 is still in the member list of the channel, and a later
`broadcast` to that channel sends to 5. -/
theorem cleanup_leaves_duplicate_membership :
    handle_client 5 ["JOIN #a\r\n".toList, "JOIN #a\r\n".toList] Server.empty =
      some (⟨[], [("#a\r\n".toList, [5])]⟩,
        [(5, ": JOIN #a\r\n\r\n".toList), (5, ": JOIN #a\r\n\r\n".toList),
         (5, ": JOIN #a\r\n\r\n".toList)]) ∧
    (broadcast "x\r\n".toList "#a\r\n".toList ⟨[], [("#a\r\n".toList, [5])]⟩).2 =
      [(5, "x\r\n".toList)] := by
  decide

/-- C6 (the code at the failing input): the handler of descriptor 4 receives
`JOIN #a` CRLF and then `PRIVMSG hello` CRLF, which has no space after the prefix.
The second chunk is not dropped: it is broadcast to the channel with the whole
remainder as target and the whole message as text. -/
theorem privmsg_without_space_is_broadcast :
    handle_client 4 ["JOIN #a\r\n".toList, "PRIVMSG hello\r\n".toList] Server.empty =
      some (⟨[], [("#a\r\n".toList, [])]⟩,
        [(4, ": JOIN #a\r\n\r\n".toList),
         (4, ": PRIVMSG hello\r\n :PRIVMSG hello\r\n\r\n".toList)]) ∧
    privmsg_split "PRIVMSG hello\r\n".toList =
      some ("hello\r\n".toList, "PRIVMSG hello\r\n".toList) := by
  decide

end Antirc
